import Mathlib

/-!
Verification development for the go-zip repository.

The repository contains two implementations of the function Zip, both in
package zipper: the file zipper.go and a second source file whose name is
unknown (referred to here as part_000).  Both are embedded below, over a
shared model of the pieces of the Go standard library they use:

* path/filepath: Clean, Base, Rel, and the lexical depth-first traversal
  of filepath.WalkDir, modelled over character lists so that every
  operation reduces inside the kernel;
* the filesystem: a tree of directories and regular files presented at the
  (cleaned) input path, plus an environment recording which of the
  fallible operations (os.Create, os.Open, io.Copy, the zip writer Close,
  os.Remove) succeed;
* the destination file on disk: the list of archive entries written to
  the zip writer together with byte counters for the bufio.Writer used by
  zipper.go, which buffers up to 32768 bytes and is flushed only when a
  write no longer fits.
-/

/-! ## Character-list path library (path/filepath) -/

/-- Splits a character list on the slash character, keeping empty segments,
like strings.Split on "/". -/
def splitSlash : List Char → List (List Char)
  | [] => [[]]
  | c :: rest =>
    let r := splitSlash rest
    if c = '/' then [] :: r else (c :: r.headD []) :: r.tail

/-- Joins path elements with slashes, like strings.Join with separator "/". -/
def joinSlash : List (List Char) → List Char
  | [] => []
  | [e] => e
  | e :: es => e ++ '/' :: joinSlash es

/-- True when the path starts with a slash, like filepath.IsAbs on unix. -/
def isAbsL (l : List Char) : Bool := l.head? == some '/'

/-- Stack-based element processing of filepath.Clean: empty and dot elements
are dropped, a dotdot element pops the previous element unless the stack is
empty (kept for relative paths, dropped at the root for absolute paths) or
the previous element is itself a dotdot. The accumulator holds the kept
elements in reverse order. -/
def cleanAux (abs : Bool) : List (List Char) → List (List Char) → List (List Char)
  | stack, [] => stack.reverse
  | stack, e :: es =>
    if e = [] ∨ e = ['.'] then cleanAux abs stack es
    else if e = ['.', '.'] then
      match stack with
      | [] => if abs then cleanAux abs [] es else cleanAux abs [['.', '.']] es
      | top :: rest =>
        if top = ['.', '.'] then cleanAux abs (e :: top :: rest) es
        else cleanAux abs rest es
    else cleanAux abs (e :: stack) es

/-- Character-list version of filepath.Clean for unix paths. -/
def cleanL (l : List Char) : List Char :=
  if l = [] then ['.']
  else
    let els := cleanAux (isAbsL l) [] (splitSlash l)
    if isAbsL l then '/' :: joinSlash els
    else if els = [] then ['.'] else joinSlash els

/-- Character-list version of filepath.Base for unix paths: empty input
gives dot, trailing slashes are removed, the suffix after the last slash is
returned, and an all-slash input gives a single slash. -/
def baseL (l : List Char) : List Char :=
  if l = [] then ['.']
  else
    let t := (l.reverse.dropWhile (fun c => c = '/')).reverse
    if t = [] then ['/']
    else (t.reverse.takeWhile (fun c => c ≠ '/')).reverse

/-- Non-empty path elements of a cleaned path; a bare dot contributes no
elements, mirroring the base equals dot special case inside filepath.Rel. -/
def elemsL (l : List Char) : List (List Char) :=
  (splitSlash l).filter (fun e => e ≠ [] ∧ e ≠ ['.'])

/-- Drops the longest common prefix of two element lists, returning both
remainders, mirroring the common-prefix scan inside filepath.Rel. -/
def dropCommon : List (List Char) → List (List Char) → List (List Char) × List (List Char)
  | [], ts => ([], ts)
  | bs, [] => (bs, [])
  | b :: bs, t :: ts => if b = t then dropCommon bs ts else (b :: bs, t :: ts)

/-- Character-list version of filepath.Rel: both paths are cleaned, equal
paths give dot, mixing absolute and relative gives an error, a remaining
dotdot base element gives an error, and otherwise the result climbs with
dotdot elements before descending into the target remainder. -/
def relL (b t : List Char) : Option (List Char) :=
  let bc := cleanL b
  let tc := cleanL t
  if bc = tc then some ['.']
  else if isAbsL bc ≠ isAbsL tc then none
  else
    match dropCommon (elemsL bc) (elemsL tc) with
    | (brem, trem) =>
      match brem with
      | [] => some (joinSlash trem)
      | b1 :: _ =>
        if b1 = ['.', '.'] then none
        else some (joinSlash (List.replicate brem.length ['.', '.'] ++ trem))

/-- Absolute identity of the file a path denotes: the path is resolved
against the working directory when relative, cleaned, and reduced to its
element list. Two paths with the same resolution denote the same file. -/
def resolveL (cwd p : List Char) : List (List Char) :=
  elemsL (cleanL (if isAbsL p then p else cwd ++ '/' :: p))

namespace Filepath

/-- String wrapper for filepath.Clean. -/
def Clean (s : String) : String := ⟨cleanL s.data⟩

/-- String wrapper for filepath.Base. -/
def Base (s : String) : String := ⟨baseL s.data⟩

/-- String wrapper for filepath.Rel. -/
def Rel (b t : String) : Option String := (relL b.data t.data).map (fun l => (⟨l⟩ : String))

end Filepath

/-! ## Filesystem trees and filepath.WalkDir -/

/-- A filesystem subtree: a regular file with its byte content, or a
directory with named children in the unspecified order the operating
system happens to store them. -/
inductive FSNode where
  | file (content : List Nat)
  | dir (entries : List (String × FSNode))

/-- Bytewise less-or-equal on names, the order in which fs.ReadDir (and
hence filepath.WalkDir) presents directory entries. Codepoint order on
characters agrees with the bytewise comparison Go performs on the UTF-8
encoding. -/
def namesLe : List Char → List Char → Bool
  | [], _ => true
  | _ :: _, [] => false
  | a :: as, b :: bs =>
    if a.toNat < b.toNat then true
    else if b.toNat < a.toNat then false
    else namesLe as bs

/-- Order on directory entries by name, used to model the sorted order of
fs.ReadDir. -/
def entLE (a b : String × FSNode) : Prop := namesLe a.1.data b.1.data = true

instance : DecidableRel entLE := fun _ _ => inferInstanceAs (Decidable (_ = true))

/-- Sorts the entries of one directory by name, as fs.ReadDir does. -/
def sortEnts (es : List (String × FSNode)) : List (String × FSNode) :=
  List.insertionSort entLE es

/-- Strict version of the entry order, antisymmetric because directory
entries with distinct names compare strictly. -/
def entLT (a b : String × FSNode) : Prop := entLE a b ∧ a.1 ≠ b.1

mutual

/-- Canonical presentation of a tree: every directory level sorted by name.
Applying the walk to this presentation models that filepath.WalkDir reads
each directory in sorted order no matter how the OS presents it. -/
def sortTree : FSNode → FSNode
  | .file c => .file c
  | .dir es => .dir (sortEnts (sortChildren es))

/-- Recursively canonicalizes each child subtree. -/
def sortChildren : List (String × FSNode) → List (String × FSNode)
  | [] => []
  | (n, c) :: rest => (n, sortTree c) :: sortChildren rest

end

/-- The path filepath.WalkDir gives a child, namely filepath.Join of the
parent path and the entry name; for a cleaned parent path this is plain
concatenation with a separator, except under the root path. -/
def childPath (p n : String) : String := if p = "/" then p ++ n else p ++ "/" ++ n

mutual

/-- Depth-first traversal of an already canonicalized subtree rooted at
path p, collecting every regular file with its path and its content.
filepath.WalkDir visits a file root itself, and visits directory entries
recursively; directories themselves are skipped by the callback in both
versions of Zip, which appends only non-directory paths. -/
def walkNode (p : String) : FSNode → List (String × List Nat)
  | .file c => [(p, c)]
  | .dir es => walkList p es

/-- Walks the children of a directory in presentation order. -/
def walkList (p : String) : List (String × FSNode) → List (String × List Nat)
  | [] => []
  | (n, c) :: rest => walkNode (childPath p n) c ++ walkList p rest

end

/-- The file list filepath.WalkDir produces for the tree found at the
cleaned input path: lexical depth-first order, each file paired with the
content it has before the destination archive is created. -/
def walkDir (p : String) (t : FSNode) : List (String × List Nat) :=
  walkNode p (sortTree t)

/-! ## Environment, errors and observable outcome -/

/-- One invocation environment: the subtree the filesystem presents at the
cleaned input path (none when the path does not exist, making the walk fail
at its root), the absolute working directory of the process, and the
success of each fallible operation the code performs. -/
structure Env where
  root : Option FSNode
  cwd : String
  createOk : Bool
  openOk : String → Bool
  copyOk : String → Bool
  closeOk : Bool
  removeOk : Bool

/-- Which step of Zip produced the returned error: the invalid path
validation error, the walk error, the os.Create error, the os.Open error on
a source file, the filepath.Rel error, the io.Copy error, or the error of
the zip writer Close. -/
inductive ZErr where
  | invalidPath
  | walkFail
  | createFail
  | srcOpenFail
  | relFail
  | copyFail
  | closeFail
deriving DecidableEq

/-- How the call ended: a normal return with the destination path, a normal
return with an error, or a panic raised inside the function. -/
inductive Ret where
  | ok (dst : String)
  | err (e : ZErr)
  | panicked
deriving DecidableEq

/-- State of the destination file on disk after the call: the archive
entries handed to the zip writer, whether the format-level Close succeeded
in writing the central directory, how many bytes actually reached the file,
and how many bytes the complete archive stream consists of. The file is an
openable archive only when it is finalized and every byte reached disk. -/
structure DiskZip where
  entries : List (String × List Nat)
  finalized : Bool
  flushed : Nat
  total : Nat
deriving DecidableEq

/-- A zip file on disk can be opened by a reader exactly when the stream was
finalized and flushed in full: the end-of-central-directory record is the
last part of the stream, so a strict prefix of the stream lacks it. -/
def DiskZip.openable (d : DiskZip) : Prop := d.finalized = true ∧ d.flushed = d.total

instance : DecidablePred DiskZip.openable := fun _ => inferInstanceAs (Decidable (_ ∧ _))

/-- Observable outcome of one call: the returned value and the state of the
destination path on disk (none when no file exists there after the call). -/
structure Outcome where
  ret : Ret
  dst : Option DiskZip
deriving DecidableEq

/-- Names of the entries of the archive left on disk, in writing order. -/
def entryNames (o : Outcome) : List String :=
  match o.dst with
  | some d => d.entries.map (fun e => e.1)
  | none => []

/-! ## Byte accounting for the zipper.go writer pipeline

zipper.go wraps the destination file in bufio.NewWriterSize(zipFile, 32*1024)
and hands that writer to zip.NewWriter. The zip writer Close flushes only
the internal buffer of archive/zip into the outer bufio.Writer; no code path
ever flushes the outer writer into the file. The outer writer forwards bytes
to the file only when a write does not fit into its remaining buffer space,
so whenever the whole archive stream is at most 32768 bytes, zero bytes
reach the file. Chunk boundaries in the model are per logical record, which
is immaterial for the conclusions drawn here, all of which concern streams
that fit into the buffer, where no write can overflow regardless of
chunking. -/

/-- Buffer size of the bufio.Writer in zipper.go. -/
def bufCap : Nat := 32 * 1024

/-- Size in bytes of the deflate stream for a file content. Only the empty
content case is relied on by any theorem: compressing an empty input with
deflate yields exactly 2 bytes, a final fixed-Huffman block holding only the
end-of-block symbol. The non-empty case is an unused placeholder. -/
def compLen (c : List Nat) : Nat := if c = [] then 2 else c.length + 11

/-- Byte sizes of the records one archive entry streams through the writer:
the 30-byte local file header plus the name, the compressed data, and the
16-byte data descriptor that archive/zip emits when writing to a plain
stream. -/
def entryBytes (name : String) (c : List Nat) : List Nat :=
  [30 + name.utf8ByteSize, compLen c, 16]

/-- Bytes the zip writer Close appends: one 46-byte central directory
header plus name per entry, then the 22-byte end-of-central-directory
record. -/
def centralLen (es : List (String × List Nat)) : Nat :=
  es.foldl (fun a e => a + 46 + e.1.utf8ByteSize) 0 + 22

/-- Length in bytes of the complete archive stream for the given entries. -/
def streamLen (es : List (String × List Nat)) : Nat :=
  (es.map (fun e => 30 + e.1.utf8ByteSize + compLen e.2 + 16)).sum + centralLen es

/-- One write of n bytes into a bufio.Writer with state (flushed bytes,
buffered bytes): a write that fits is buffered; otherwise, with an empty
buffer the write goes to the file directly, and with a non-empty buffer the
buffer is filled and flushed and the remainder is buffered or written
directly. -/
def bwPush : Nat × Nat → Nat → Nat × Nat
  | (fl, bu), n =>
    if bu + n ≤ bufCap then (fl, bu + n)
    else if bu = 0 then (fl + n, 0)
    else
      let rem := n - (bufCap - bu)
      if rem ≤ bufCap then (fl + bufCap, rem) else (fl + bufCap + rem, 0)

/-- Feeds a list of writes through the buffered writer. -/
def bwRun (st : Nat × Nat) (ws : List Nat) : Nat × Nat := ws.foldl bwPush st

/-- Writer state of zipper.go after streaming all entries and, when the
format-level Close succeeds, the central directory; the outer bufio.Writer
is never flushed explicitly, so whatever remains buffered here never
reaches the file. -/
def v1Bytes (es : List (String × List Nat)) (closeOk : Bool) : Nat × Nat :=
  let st := es.foldl (fun st e => bwRun st (entryBytes e.1 e.2)) (0, 0)
  if closeOk then bwPush st (centralLen es) else st

/-! ## The entry-writing loop shared by both versions -/

/-- Runs the per-file loop over the walked file list: opens each source
file, derives its entry name with mkName (the identity for zipper.go, the
path made relative by filepath.Rel for part_000), creates the entry and
copies the content. A source file that resolves to the same file as the
destination archive was truncated by os.Create before being read, so its
content is read back as empty. Returns the entries handed to the zip writer
and the first error, if any; on a copy error the entry was already created,
on an open or name error it was not. -/
def runEntries (env : Env) (dstR : List (List Char)) (mkName : String → Option String) :
    List (String × List Nat) → List (String × List Nat) × Option ZErr
  | [] => ([], none)
  | (p, c) :: rest =>
    if env.openOk p = false then ([], some .srcOpenFail)
    else if mkName p = none then ([], some .relFail)
    else
      let nm := (mkName p).getD ""
      let content := if resolveL env.cwd.data p.data = dstR then [] else c
      if env.copyOk p = false then ([(nm, content)], some .copyFail)
      else
        let r := runEntries env dstR mkName rest
        ((nm, content) :: r.1, r.2)

/-! ## The two implementations of Zip

Both versions share the same opening: clean the input path, validate it and
its base name before any filesystem access, walk the tree, and create the
destination file. They differ only in the naming of entries and in the
handling of the finalize and removal errors, captured by their finish
functions below. -/

/-- Shared opening of both versions of Zip: validation of the cleaned path
and of the derived base name (before any filesystem access), the walk
(which fails when the input path does not exist, before the destination is
created), and the creation of the destination file; the rest of the work is
delegated to the per-version continuation. -/
def zipShell (env : Env) (inPath : String) (run : String → String → FSNode → Outcome) : Outcome :=
  let inP := Filepath.Clean inPath
  if inP = "." ∨ inP = ".." then ⟨.err .invalidPath, none⟩
  else
    let b := Filepath.Base inP
    if b = "" ∨ b = "." ∨ b = ".." then ⟨.err .invalidPath, none⟩
    else
      match env.root with
      | none => ⟨.err .walkFail, none⟩
      | some t =>
        if env.createOk = false then ⟨.err .createFail, none⟩
        else run inP (b ++ ".zip") t

namespace ZipperGo

/-- End of a zipper.go call, after the loop: on an error the deferred
cleanup removes the destination, panicking when the removal itself fails;
on success the deferred zip writer Close runs after completed was set, its
error is discarded, and the call reports success with whatever the
never-flushed bufio.Writer let through to disk. -/
def finish (env : Env) (dst : String) : List (String × List Nat) × Option ZErr → Outcome
  | (es, some e) =>
    if env.removeOk then ⟨.err e, none⟩
    else ⟨.panicked, some ⟨es, false, (v1Bytes es env.closeOk).1, streamLen es⟩⟩
  | (es, none) => ⟨.ok dst, some ⟨es, env.closeOk, (v1Bytes es env.closeOk).1, streamLen es⟩⟩

/-- Model of Zip from zipper.go. Entry names are the walked paths
themselves, passed unchanged to the zip writer Create. -/
def Zip (env : Env) (inPath : String) : Outcome :=
  zipShell env inPath (fun inP dst t =>
    finish env dst
      (runEntries env (resolveL env.cwd.data dst.data) (fun p => some p) (walkDir inP t)))

end ZipperGo

namespace Part000

/-- End of a part_000 call, after the loop: a loop error or a failing zip
writer Close is returned, and the cleanup removes the destination file,
silently ignoring a removal failure, which then leaves the partial file on
disk while only the original error is returned. -/
def finish (env : Env) (dst : String) : List (String × List Nat) × Option ZErr → Outcome
  | (es, some e) =>
    if env.removeOk then ⟨.err e, none⟩
    else ⟨.err e, some ⟨es, false, 0, streamLen es⟩⟩
  | (es, none) =>
    if env.closeOk = false then
      if env.removeOk then ⟨.err .closeFail, none⟩
      else ⟨.err .closeFail, some ⟨es, false, 0, streamLen es⟩⟩
    else ⟨.ok dst, some ⟨es, true, streamLen es, streamLen es⟩⟩

/-- Model of Zip from the unnamed source file part_000. Entry names are the
walked paths made relative to the cleaned input path by filepath.Rel. -/
def Zip (env : Env) (inPath : String) : Outcome :=
  zipShell env inPath (fun inP dst t =>
    finish env dst
      (runEntries env (resolveL env.cwd.data dst.data) (fun p => Filepath.Rel inP p) (walkDir inP t)))

end Part000

/-! ## Concrete environments used by the claim theorems -/

/-- Directory holding one empty, readable file, with every operation
succeeding; the complete zipper.go archive stream for it is 122 bytes. -/
def envC1 : Env := ⟨some (.dir [("a", .file [])]), "/w", true, fun _ => true, fun _ => true, true, true⟩

/-- Environment in which io.Copy fails and os.Remove fails. -/
def envC2 : Env := ⟨some (.dir [("a", .file [1])]), "/w", true, fun _ => true, fun _ => false, true, false⟩

/-- Environment whose input path does not exist. -/
def envC2w : Env := ⟨none, "/w", true, fun _ => true, fun _ => true, true, true⟩

/-- Directory holding one file f, with every operation succeeding. -/
def envC3a : Env := ⟨some (.dir [("f", .file [7])]), "/w", true, fun _ => true, fun _ => true, true, true⟩

/-- Single regular file as the input root, with every operation succeeding. -/
def envC3b : Env := ⟨some (.file [1]), "/w", true, fun _ => true, fun _ => true, true, true⟩

/-- Environment whose input path does not exist, with a second set of
operation outcomes, for the independence half of the validation claim. -/
def envC4a : Env := ⟨none, "/w", true, fun _ => true, fun _ => true, true, true⟩

/-- Environment differing from envC4a in every operation outcome. -/
def envC4b : Env := ⟨some (.dir []), "/x", false, fun _ => false, fun _ => false, false, false⟩

/-- Empty directory presented at the filesystem root path. -/
def envC5 : Env := ⟨some (.dir []), "/w", true, fun _ => true, fun _ => true, true, true⟩

/-- Ordinary empty directory, used for the witness of the naming claim. -/
def envC5w : Env := ⟨some (.dir []), "/w", true, fun _ => true, fun _ => true, true, true⟩

/-- Environment in which the zip writer Close fails. -/
def envC6 : Env := ⟨some (.dir []), "/w", true, fun _ => true, fun _ => true, false, true⟩

/-- Empty directory with every operation succeeding. -/
def envC7 : Env := ⟨some (.dir []), "/w", true, fun _ => true, fun _ => true, true, true⟩

/-- Environment in which io.Copy fails and os.Remove fails, exercising the
cleanup paths of both versions. -/
def envC8 : Env := ⟨some (.dir [("a", .file [1])]), "/w", true, fun _ => true, fun _ => false, true, false⟩

/-- Environment whose input path does not exist, for the cleanup witness. -/
def envC8w : Env := ⟨none, "/w", true, fun _ => true, fun _ => true, true, true⟩

/-- Stale archive scenario: the working directory is /a/x, the input path
will be /a/x itself, and a file x.zip from an earlier run lies inside. -/
def envC9 : Env := ⟨some (.dir [("x.zip", .file [1, 2, 3])]), "/a/x", true, fun _ => true, fun _ => true, true, true⟩

/-- Directory with one file whose path does not alias the destination. -/
def envC9w : Env := ⟨some (.dir [("f", .file [1])]), "/w", true, fun _ => true, fun _ => true, true, true⟩

/-- Directory whose two files are presented out of name order. -/
def envC10 : Env := ⟨some (.dir [("b", .file [2]), ("a", .file [1])]), "/w", true, fun _ => true, fun _ => true, true, true⟩


/-! ## General lemmas about the two implementations -/

/-- Exhaustive case analysis of the shared shell: an invalid-path return, a
walk failure, a create failure, or delegation to the continuation with the
tree presented at the input and the derived destination name. -/
theorem zipShell_cases (env : Env) (inPath : String) (run : String → String → FSNode → Outcome) :
    zipShell env inPath run = ⟨.err .invalidPath, none⟩ ∨
    zipShell env inPath run = ⟨.err .walkFail, none⟩ ∨
    zipShell env inPath run = ⟨.err .createFail, none⟩ ∨
    ∃ t, env.root = some t ∧
      zipShell env inPath run =
        run (Filepath.Clean inPath) (Filepath.Base (Filepath.Clean inPath) ++ ".zip") t := by
  by_cases h1 : Filepath.Clean inPath = "." ∨ Filepath.Clean inPath = ".."
  · left
    simp only [zipShell]
    rw [if_pos h1]
  · by_cases h2 : Filepath.Base (Filepath.Clean inPath) = "" ∨
        Filepath.Base (Filepath.Clean inPath) = "." ∨ Filepath.Base (Filepath.Clean inPath) = ".."
    · left
      simp only [zipShell]
      rw [if_neg h1, if_pos h2]
    · match hroot : env.root with
      | none =>
        right; left
        simp only [zipShell, hroot]
        rw [if_neg h1, if_neg h2]
      | some t =>
        by_cases h3 : env.createOk = false
        · right; right; left
          simp only [zipShell, hroot]
          rw [if_neg h1, if_neg h2, if_pos h3]
        · right; right; right
          refine ⟨t, rfl, ?_⟩
          simp only [zipShell, hroot]
          rw [if_neg h1, if_neg h2, if_neg h3]

/-- The shell rejects an invalid path with no other effect, independently of
the environment: the validation runs before any filesystem access. -/
theorem zipShell_invalid (env : Env) (inPath : String) (run : String → String → FSNode → Outcome)
    (h : Filepath.Clean inPath = "." ∨ Filepath.Clean inPath = ".." ∨
      Filepath.Base (Filepath.Clean inPath) = "" ∨ Filepath.Base (Filepath.Clean inPath) = "." ∨
      Filepath.Base (Filepath.Clean inPath) = "..") :
    zipShell env inPath run = ⟨.err .invalidPath, none⟩ := by
  by_cases h1 : Filepath.Clean inPath = "." ∨ Filepath.Clean inPath = ".."
  · simp only [zipShell]
    rw [if_pos h1]
  · have h2 : Filepath.Base (Filepath.Clean inPath) = "" ∨
        Filepath.Base (Filepath.Clean inPath) = "." ∨
        Filepath.Base (Filepath.Clean inPath) = ".." := by tauto
    simp only [zipShell]
    rw [if_neg h1, if_pos h2]

/-- When the loop finishes without error, the entry names are the images of
the walked paths under the naming function. -/
theorem runEntries_names_of_ok (env : Env) (dstR : List (List Char))
    (mk : String → Option String) :
    ∀ fs, (runEntries env dstR mk fs).2 = none →
      (runEntries env dstR mk fs).1.map (fun e => e.1) =
        fs.map (fun q => (mk q.1).getD "") := by
  intro fs
  induction fs with
  | nil => intro _; rfl
  | cons q rest ih =>
    obtain ⟨p, c⟩ := q
    intro h
    simp only [runEntries] at h ⊢
    by_cases ho : env.openOk p = false
    · rw [if_pos ho] at h
      exact absurd h (by simp)
    · rw [if_neg ho] at h ⊢
      by_cases hmk : mk p = none
      · rw [if_pos hmk] at h
        exact absurd h (by simp)
      · rw [if_neg hmk] at h ⊢
        by_cases hc : env.copyOk p = false
        · rw [if_pos hc] at h
          exact absurd h (by simp)
        · rw [if_neg hc] at h ⊢
          simp only [List.map_cons] at h ⊢
          rw [ih h]

/-- An error return of the zipper.go finish leaves no destination file: the
only residue-bearing exit of zipper.go is the panic on a failed removal,
which is not an error return. -/
theorem zipGo_finish_err_none (env : Env) (dst : String)
    (r : List (String × List Nat) × Option ZErr) (e : ZErr)
    (h : (ZipperGo.finish env dst r).ret = .err e) : (ZipperGo.finish env dst r).dst = none := by
  rcases r with ⟨es, e?⟩
  cases e? with
  | none => simp [ZipperGo.finish] at h
  | some e0 =>
    by_cases hr : env.removeOk
    · simp [ZipperGo.finish, hr]
    · simp [ZipperGo.finish, hr] at h

/-- Inversion of a successful zipper.go finish. -/
theorem zipGo_finish_ok_inv (env : Env) (dst : String)
    (r : List (String × List Nat) × Option ZErr) (d : String)
    (h : (ZipperGo.finish env dst r).ret = .ok d) :
    d = dst ∧ r.2 = none ∧
    ZipperGo.finish env dst r =
      ⟨.ok dst, some ⟨r.1, env.closeOk, (v1Bytes r.1 env.closeOk).1, streamLen r.1⟩⟩ := by
  rcases r with ⟨es, e?⟩
  cases e? with
  | none =>
    refine ⟨?_, rfl, rfl⟩
    simpa [ZipperGo.finish, eq_comm] using h
  | some e0 =>
    by_cases hr : env.removeOk <;> simp [ZipperGo.finish, hr] at h

/-- The part_000 finish never panics: the removal error is discarded. -/
theorem part000_finish_no_panic (env : Env) (dst : String)
    (r : List (String × List Nat) × Option ZErr) :
    (Part000.finish env dst r).ret ≠ .panicked := by
  rcases r with ⟨es, e?⟩
  cases e? with
  | none =>
    by_cases hc : env.closeOk = false
    · by_cases hr : env.removeOk <;> simp [Part000.finish, hc, hr]
    · simp [Part000.finish, hc]
  | some e0 =>
    by_cases hr : env.removeOk <;> simp [Part000.finish, hr]

/-- When removal succeeds, an error return of the part_000 finish leaves no
destination file. -/
theorem part000_finish_err_none (env : Env) (dst : String)
    (r : List (String × List Nat) × Option ZErr) (e : ZErr)
    (hrm : env.removeOk = true)
    (h : (Part000.finish env dst r).ret = .err e) : (Part000.finish env dst r).dst = none := by
  rcases r with ⟨es, e?⟩
  cases e? with
  | none =>
    by_cases hc : env.closeOk = false
    · simp [Part000.finish, hc, hrm]
    · simp [Part000.finish, hc] at h
  | some e0 => simp [Part000.finish, hrm]

/-- Inversion of a successful part_000 finish: success requires the zip
writer Close to have succeeded, and the complete archive is on disk. -/
theorem part000_finish_ok_inv (env : Env) (dst : String)
    (r : List (String × List Nat) × Option ZErr) (d : String)
    (h : (Part000.finish env dst r).ret = .ok d) :
    d = dst ∧ r.2 = none ∧ env.closeOk = true ∧
    Part000.finish env dst r =
      ⟨.ok dst, some ⟨r.1, true, streamLen r.1, streamLen r.1⟩⟩ := by
  rcases r with ⟨es, e?⟩
  cases e? with
  | none =>
    by_cases hc : env.closeOk = false
    · by_cases hr : env.removeOk <;> simp [Part000.finish, hc, hr] at h
    · have hfin : Part000.finish env dst (es, none) =
          ⟨.ok dst, some ⟨es, true, streamLen es, streamLen es⟩⟩ := by
        simp [Part000.finish, hc]
      rw [hfin] at h
      simp only [Ret.ok.injEq] at h
      exact ⟨h.symm, rfl, by simpa using hc, by rw [hfin, h]⟩
  | some e0 =>
    by_cases hr : env.removeOk <;> simp [Part000.finish, hr] at h

/-- Any error return of zipper.go leaves no file at the destination path:
discovery and validation failures happen before the file is created, and
later failures remove it (a failed removal panics instead of returning). -/
theorem zipGo_err_none (env : Env) (p : String) (e : ZErr)
    (h : (ZipperGo.Zip env p).ret = .err e) : (ZipperGo.Zip env p).dst = none := by
  unfold ZipperGo.Zip at h ⊢
  rcases zipShell_cases env p (fun inP dst t =>
      ZipperGo.finish env dst
        (runEntries env (resolveL env.cwd.data dst.data) (fun q => some q) (walkDir inP t))) with
    h1 | h1 | h1 | ⟨t, hroot, h1⟩ <;> rw [h1] at h ⊢
  exact zipGo_finish_err_none env _ _ e h

/-- Inversion of a successful zipper.go call. -/
theorem zipGo_ok_inv (env : Env) (p d : String)
    (h : (ZipperGo.Zip env p).ret = .ok d) :
    d = Filepath.Base (Filepath.Clean p) ++ ".zip" ∧
    ∃ t, env.root = some t ∧
      (runEntries env (resolveL env.cwd.data d.data) (fun q => some q)
          (walkDir (Filepath.Clean p) t)).2 = none ∧
      (ZipperGo.Zip env p).dst = some
        ⟨(runEntries env (resolveL env.cwd.data d.data) (fun q => some q)
            (walkDir (Filepath.Clean p) t)).1,
          env.closeOk,
          (v1Bytes ((runEntries env (resolveL env.cwd.data d.data) (fun q => some q)
            (walkDir (Filepath.Clean p) t)).1) env.closeOk).1,
          streamLen ((runEntries env (resolveL env.cwd.data d.data) (fun q => some q)
            (walkDir (Filepath.Clean p) t)).1)⟩ := by
  unfold ZipperGo.Zip at h ⊢
  rcases zipShell_cases env p (fun inP dst t =>
      ZipperGo.finish env dst
        (runEntries env (resolveL env.cwd.data dst.data) (fun q => some q) (walkDir inP t))) with
    h1 | h1 | h1 | ⟨t, hroot, h1⟩ <;> rw [h1] at h
  · exact absurd h (by simp)
  · exact absurd h (by simp)
  · exact absurd h (by simp)
  · obtain ⟨hd, h2, hfin⟩ := zipGo_finish_ok_inv env _ _ d h
    subst hd
    exact ⟨rfl, t, hroot, h2, by rw [h1, hfin]⟩

/-- A part_000 call never panics. -/
theorem part000_no_panic (env : Env) (p : String) : (Part000.Zip env p).ret ≠ .panicked := by
  unfold Part000.Zip
  rcases zipShell_cases env p (fun inP dst t =>
      Part000.finish env dst
        (runEntries env (resolveL env.cwd.data dst.data)
          (fun q => Filepath.Rel inP q) (walkDir inP t))) with
    h1 | h1 | h1 | ⟨t, hroot, h1⟩ <;> rw [h1]
  · simp
  · simp
  · simp
  · exact part000_finish_no_panic env _ _

/-- When removal succeeds, any error return of part_000 leaves no file at
the destination path. -/
theorem part000_err_none (env : Env) (p : String) (e : ZErr)
    (hrm : env.removeOk = true)
    (h : (Part000.Zip env p).ret = .err e) : (Part000.Zip env p).dst = none := by
  unfold Part000.Zip at h ⊢
  rcases zipShell_cases env p (fun inP dst t =>
      Part000.finish env dst
        (runEntries env (resolveL env.cwd.data dst.data)
          (fun q => Filepath.Rel inP q) (walkDir inP t))) with
    h1 | h1 | h1 | ⟨t, hroot, h1⟩ <;> rw [h1] at h ⊢
  exact part000_finish_err_none env _ _ e hrm h

/-- Inversion of a successful part_000 call. -/
theorem part000_ok_inv (env : Env) (p d : String)
    (h : (Part000.Zip env p).ret = .ok d) :
    d = Filepath.Base (Filepath.Clean p) ++ ".zip" ∧ env.closeOk = true ∧
    ∃ t, env.root = some t ∧
      (runEntries env (resolveL env.cwd.data d.data)
          (fun q => Filepath.Rel (Filepath.Clean p) q)
          (walkDir (Filepath.Clean p) t)).2 = none ∧
      (Part000.Zip env p).dst = some
        ⟨(runEntries env (resolveL env.cwd.data d.data)
            (fun q => Filepath.Rel (Filepath.Clean p) q)
            (walkDir (Filepath.Clean p) t)).1,
          true,
          streamLen ((runEntries env (resolveL env.cwd.data d.data)
            (fun q => Filepath.Rel (Filepath.Clean p) q)
            (walkDir (Filepath.Clean p) t)).1),
          streamLen ((runEntries env (resolveL env.cwd.data d.data)
            (fun q => Filepath.Rel (Filepath.Clean p) q)
            (walkDir (Filepath.Clean p) t)).1)⟩ := by
  unfold Part000.Zip at h ⊢
  rcases zipShell_cases env p (fun inP dst t =>
      Part000.finish env dst
        (runEntries env (resolveL env.cwd.data dst.data)
          (fun q => Filepath.Rel inP q) (walkDir inP t))) with
    h1 | h1 | h1 | ⟨t, hroot, h1⟩ <;> rw [h1] at h
  · exact absurd h (by simp)
  · exact absurd h (by simp)
  · exact absurd h (by simp)
  · obtain ⟨hd, h2, hclose, hfin⟩ := part000_finish_ok_inv env _ _ d h
    subst hd
    exact ⟨rfl, hclose, t, hroot, h2, by rw [h1, hfin]⟩

/-- On success, the entry names of the zipper.go archive are exactly the
walked paths, in traversal order. -/
theorem zipGo_names (env : Env) (p d : String) (t : FSNode)
    (hroot : env.root = some t) (h : (ZipperGo.Zip env p).ret = .ok d) :
    entryNames (ZipperGo.Zip env p) = (walkDir (Filepath.Clean p) t).map (fun q => q.1) := by
  obtain ⟨hd, t0, hroot0, hrun, hdst⟩ := zipGo_ok_inv env p d h
  rw [hroot0] at hroot
  injection hroot with ht
  subst ht
  rw [entryNames, hdst]
  have := runEntries_names_of_ok env (resolveL env.cwd.data d.data) (fun q => some q)
    (walkDir (Filepath.Clean p) t0) hrun
  simpa using this

/-- On success, the entry names of the part_000 archive are the walked
paths made relative to the cleaned input path, in traversal order. -/
theorem part000_names (env : Env) (p d : String) (t : FSNode)
    (hroot : env.root = some t) (h : (Part000.Zip env p).ret = .ok d) :
    entryNames (Part000.Zip env p) =
      (walkDir (Filepath.Clean p) t).map
        (fun q => (Filepath.Rel (Filepath.Clean p) q.1).getD "") := by
  obtain ⟨hd, hclose, t0, hroot0, hrun, hdst⟩ := part000_ok_inv env p d h
  rw [hroot0] at hroot
  injection hroot with ht
  subst ht
  rw [entryNames, hdst]
  exact runEntries_names_of_ok env (resolveL env.cwd.data d.data)
    (fun q => Filepath.Rel (Filepath.Clean p) q) (walkDir (Filepath.Clean p) t0) hrun

/-! ## Lemmas about the path functions -/

/-- The base of a path is either the single-slash result for an all-slash
path or contains no slash at all: it is the suffix after the last slash. -/
theorem baseL_cases (l : List Char) : baseL l = ['/'] ∨ '/' ∉ baseL l := by
  unfold baseL
  by_cases h0 : l = []
  · rw [if_pos h0]
    right
    simp
  · rw [if_neg h0]
    by_cases ht : (l.reverse.dropWhile (fun c => c = '/')).reverse = []
    · rw [if_pos ht]
      exact Or.inl rfl
    · rw [if_neg ht]
      right
      intro hmem
      rw [List.mem_reverse] at hmem
      have := List.mem_takeWhile_imp hmem
      simp at this

/-- Every segment produced by splitting on slashes is slash-free. -/
theorem splitSlash_no_slash : ∀ (l : List Char), ∀ s ∈ splitSlash l, '/' ∉ s := by
  intro l
  induction l with
  | nil =>
    intro s hs
    simp [splitSlash] at hs
    simp [hs]
  | cons c rest ih =>
    intro s hs
    simp only [splitSlash] at hs
    by_cases hc : c = '/'
    · rw [if_pos hc] at hs
      simp only [List.mem_cons] at hs
      rcases hs with rfl | hs
      · simp
      · exact ih s hs
    · rw [if_neg hc] at hs
      simp only [List.mem_cons] at hs
      rcases hs with rfl | hs
      · intro hin
        simp only [List.mem_cons] at hin
        rcases hin with rfl | hin
        · exact hc rfl
        · rcases hq : splitSlash rest with _ | ⟨s0, ss⟩
          · rw [hq] at hin
            simp at hin
          · rw [hq] at hin
            exact ih s0 (by rw [hq]; simp) (by simpa using hin)
      · rcases hq : splitSlash rest with _ | ⟨s0, ss⟩
        · rw [hq] at hs
          simp at hs
        · rw [hq] at hs
          exact ih s (by rw [hq]; exact List.mem_cons_of_mem _ (by simpa using hs))

/-- Every element kept by the clean stack processing is non-empty and
slash-free, provided the incoming segments and the stack already are. -/
theorem cleanAux_inv (abs : Bool) :
    ∀ (es stack : List (List Char)),
      (∀ s ∈ stack, s ≠ [] ∧ '/' ∉ s) → (∀ s ∈ es, '/' ∉ s) →
      ∀ s ∈ cleanAux abs stack es, s ≠ [] ∧ '/' ∉ s := by
  intro es
  induction es with
  | nil =>
    intro stack hstack _ s hs
    simp only [cleanAux] at hs
    exact hstack s (List.mem_reverse.mp hs)
  | cons e rest ih =>
    intro stack hstack hes s hs
    have he : '/' ∉ e := hes e (by simp)
    have hrest : ∀ x ∈ rest, '/' ∉ x := fun x hx => hes x (by simp [hx])
    simp only [cleanAux] at hs
    by_cases h1 : e = [] ∨ e = ['.']
    · rw [if_pos h1] at hs
      exact ih stack hstack hrest s hs
    · rw [if_neg h1] at hs
      by_cases h2 : e = ['.', '.']
      · rw [if_pos h2] at hs
        cases stack with
        | nil =>
          cases abs with
          | true => exact ih [] (by simp) hrest s (by simpa using hs)
          | false =>
            refine ih [['.', '.']] ?_ hrest s (by simpa using hs)
            intro x hx
            simp at hx
            simp [hx]
        | cons top rest2 =>
          by_cases h3 : top = ['.', '.']
          · rw [show (match top :: rest2 with
                | [] => if abs = true then cleanAux abs [] rest else cleanAux abs [['.', '.']] rest
                | top :: r2 => if top = ['.', '.'] then cleanAux abs (e :: top :: r2) rest
                    else cleanAux abs r2 rest) =
                if top = ['.', '.'] then cleanAux abs (e :: top :: rest2) rest
                else cleanAux abs rest2 rest from rfl, if_pos h3] at hs
            refine ih (e :: top :: rest2) ?_ hrest s hs
            intro x hx
            simp only [List.mem_cons] at hx
            rcases hx with rfl | hx
            · rw [h2]
              exact ⟨by simp, by simp⟩
            · exact hstack x (by simpa using hx)
          · rw [show (match top :: rest2 with
                | [] => if abs = true then cleanAux abs [] rest else cleanAux abs [['.', '.']] rest
                | top :: r2 => if top = ['.', '.'] then cleanAux abs (e :: top :: r2) rest
                    else cleanAux abs r2 rest) =
                if top = ['.', '.'] then cleanAux abs (e :: top :: rest2) rest
                else cleanAux abs rest2 rest from rfl, if_neg h3] at hs
            exact ih rest2 (fun x hx => hstack x (by simp [hx])) hrest s hs
      · rw [if_neg h2] at hs
        refine ih (e :: stack) ?_ hrest s hs
        intro x hx
        simp only [List.mem_cons] at hx
        rcases hx with rfl | hx
        · exact ⟨fun hne => h1 (Or.inl hne), he⟩
        · exact hstack x (by simpa using hx)

/-- A character of the first element of a joined list is a character of the
join. -/
theorem mem_joinSlash_head (e : List Char) (es : List (List Char)) (c : Char) (hc : c ∈ e) :
    c ∈ joinSlash (e :: es) := by
  cases es with
  | nil => exact hc
  | cons f fs =>
    unfold joinSlash
    exact List.mem_append_left _ hc

/-- When the base of a path is the single slash, the path consists only of
slashes. -/
theorem baseL_slash_cases (x : List Char) (h : baseL x = ['/']) : ∀ c ∈ x, c = '/' := by
  unfold baseL at h
  by_cases h0 : x = []
  · rw [if_pos h0] at h
    exact absurd h (by decide)
  · rw [if_neg h0] at h
    simp only [List.reverse_reverse] at h
    by_cases ht : (x.reverse.dropWhile (fun c => c = '/')).reverse = []
    · intro c hc
      have hdw : x.reverse.dropWhile (fun c => c = '/') = [] := by
        simpa using congrArg List.reverse ht
      have := List.dropWhile_eq_nil_iff.mp hdw c (by simpa using hc)
      simpa using this
    · rw [if_neg ht] at h
      exfalso
      have hm : '/' ∈ ((x.reverse.dropWhile (fun c => c = '/')).takeWhile
          (fun c => c ≠ '/')).reverse := by
        rw [h]
        simp
      rw [List.mem_reverse] at hm
      have := List.mem_takeWhile_imp hm
      simp at this

/-- When every character of a cleaned path is a slash, the cleaned path is
the root path itself. -/
theorem cleanL_all_slash (l : List Char) (h : ∀ c ∈ cleanL l, c = '/') : cleanL l = ['/'] := by
  unfold cleanL at h ⊢
  by_cases h0 : l = []
  · rw [if_pos h0] at h
    exact absurd (h '.' (by simp)) (by decide)
  · rw [if_neg h0] at h ⊢
    have hinv := cleanAux_inv (isAbsL l) (splitSlash l) [] (by simp) (splitSlash_no_slash l)
    obtain ⟨els, hels⟩ : ∃ els, cleanAux (isAbsL l) [] (splitSlash l) = els := ⟨_, rfl⟩
    rw [hels] at h hinv ⊢
    by_cases habs : isAbsL l = true
    · rw [if_pos habs] at h ⊢
      cases els with
      | nil => rfl
      | cons e es =>
        exfalso
        obtain ⟨hne, hnos⟩ := hinv e (by simp)
        obtain ⟨c0, hc0⟩ := List.exists_mem_of_ne_nil e hne
        have hcj : c0 ∈ '/' :: joinSlash (e :: es) :=
          List.mem_cons_of_mem _ (mem_joinSlash_head e es c0 hc0)
        exact hnos (h c0 hcj ▸ hc0)
    · rw [if_neg habs] at h ⊢
      cases els with
      | nil =>
        rw [if_pos rfl] at h
        exact absurd (h '.' (by simp)) (by decide)
      | cons e es =>
        exfalso
        obtain ⟨hne, hnos⟩ := hinv e (by simp)
        obtain ⟨c0, hc0⟩ := List.exists_mem_of_ne_nil e hne
        have hcj : c0 ∈ joinSlash (e :: es) := mem_joinSlash_head e es c0 hc0
        have hni : (e :: es) ≠ ([] : List (List Char)) := by simp
        rw [if_neg hni] at h
        exact hnos (h c0 hcj ▸ hc0)

/-- Unless the cleaned path is the filesystem root, its base name contains
no slash, so the derived archive name is a bare file name resolved in the
working directory. -/
theorem base_clean_no_slash (p : String) (hne : Filepath.Clean p ≠ "/") :
    '/' ∉ (Filepath.Base (Filepath.Clean p)).data := by
  rcases baseL_cases (Filepath.Clean p).data with h | h
  · exfalso
    apply hne
    apply String.ext
    exact cleanL_all_slash p.data (baseL_slash_cases _ h)
  · exact h

/-! ## Determinism of the walk under directory reordering -/

/-- The bytewise order on names is total. -/
theorem namesLe_total : ∀ a b : List Char, namesLe a b = true ∨ namesLe b a = true := by
  intro a
  induction a with
  | nil => intro b; left; rfl
  | cons x xs ih =>
    intro b
    cases b with
    | nil => right; rfl
    | cons y ys =>
      by_cases h1 : x.toNat < y.toNat
      · left
        simp [namesLe, h1]
      · by_cases h2 : y.toNat < x.toNat
        · right
          simp [namesLe, h2, h1]
        · rcases ih ys with h | h
          · left
            simp [namesLe, h1, h2, h]
          · right
            simp [namesLe, h1, h2, h]

/-- The bytewise order on names is transitive. -/
theorem namesLe_trans : ∀ a b c : List Char,
    namesLe a b = true → namesLe b c = true → namesLe a c = true := by
  intro a
  induction a with
  | nil => intro b c _ _; rfl
  | cons x xs ih =>
    intro b c hab hbc
    cases b with
    | nil => simp [namesLe] at hab
    | cons y ys =>
      cases c with
      | nil => simp [namesLe] at hbc
      | cons z zs =>
        simp only [namesLe] at hab hbc ⊢
        by_cases hxy : x.toNat < y.toNat
        · by_cases hyz : y.toNat < z.toNat
          · have hxz : x.toNat < z.toNat := Nat.lt_trans hxy hyz
            simp [hxz]
          · by_cases hzy : z.toNat < y.toNat
            · simp [hyz, hzy] at hbc
            · have hyz2 : y.toNat = z.toNat := Nat.le_antisymm (Nat.le_of_not_lt hzy) (Nat.le_of_not_lt hyz)
              have hxz : x.toNat < z.toNat := hyz2 ▸ hxy
              simp [hxz]
        · by_cases hyx : y.toNat < x.toNat
          · simp [hxy, hyx] at hab
          · have hxy2 : x.toNat = y.toNat := Nat.le_antisymm (Nat.le_of_not_lt hyx) (Nat.le_of_not_lt hxy)
            rw [if_neg hxy, if_neg hyx] at hab
            by_cases hyz : y.toNat < z.toNat
            · have hxz : x.toNat < z.toNat := hxy2 ▸ hyz
              simp [hxz]
            · by_cases hzy : z.toNat < y.toNat
              · simp [hyz, hzy] at hbc
              · rw [if_neg hyz, if_neg hzy] at hbc
                have hxz : ¬x.toNat < z.toNat := by omega
                have hzx : ¬z.toNat < x.toNat := by omega
                rw [if_neg hxz, if_neg hzx]
                exact ih ys zs hab hbc

/-- The bytewise order on names is antisymmetric. -/
theorem namesLe_antisymm : ∀ a b : List Char,
    namesLe a b = true → namesLe b a = true → a = b := by
  intro a
  induction a with
  | nil =>
    intro b _ hba
    cases b with
    | nil => rfl
    | cons y ys => simp [namesLe] at hba
  | cons x xs ih =>
    intro b hab hba
    cases b with
    | nil => simp [namesLe] at hab
    | cons y ys =>
      simp only [namesLe] at hab hba
      by_cases hxy : x.toNat < y.toNat
      · have : ¬y.toNat < x.toNat := by omega
        simp [hxy, this] at hba
      · by_cases hyx : y.toNat < x.toNat
        · simp [hxy, hyx] at hab
        · have hx : x = y := by
            apply Char.ext
            apply UInt32.ext
            exact_mod_cast Nat.le_antisymm (Nat.le_of_not_lt hyx) (Nat.le_of_not_lt hxy)
          rw [if_neg hxy, if_neg hyx] at hab hba
          rw [hx, ih ys hab hba]

/-- A run sorted by the entry order with pairwise distinct names is sorted
by the strict order. -/
theorem sorted_entLT_of (s : List (String × FSNode))
    (hs : List.Sorted entLE s) (hn : (s.map (fun e => e.1)).Nodup) :
    List.Sorted entLT s := by
  have hne : s.Pairwise (fun a b => a.1 ≠ b.1) := List.pairwise_map.mp hn
  exact (List.Pairwise.and hs hne).imp (fun h => h)

/-- Sorting the children recursively canonicalizes each subtree and keeps
names and order. -/
theorem sortChildren_eq_map :
    ∀ es : List (String × FSNode), sortChildren es = es.map (fun e => (e.1, sortTree e.2)) := by
  intro es
  induction es with
  | nil => rfl
  | cons e rest ih =>
    obtain ⟨n, c⟩ := e
    simp only [sortChildren, ih, List.map_cons]

/-- Two presentations of the same directory, differing only in the order of
entries with pairwise distinct names, sort to the same entry list. -/
theorem sortEnts_perm_eq (es es2 : List (String × FSNode)) (h : es.Perm es2)
    (hn : (es.map (fun e => e.1)).Nodup) : sortEnts es = sortEnts es2 := by
  haveI : IsTotal (String × FSNode) entLE := ⟨fun a b => namesLe_total a.1.data b.1.data⟩
  haveI : IsTrans (String × FSNode) entLE :=
    ⟨fun a b c hab hbc => namesLe_trans a.1.data b.1.data c.1.data hab hbc⟩
  haveI : IsAntisymm (String × FSNode) entLT :=
    ⟨fun a b hab hba => absurd (String.ext (namesLe_antisymm _ _ hab.1 hba.1)) hab.2⟩
  have p1 : (sortEnts es).Perm es := List.perm_insertionSort entLE es
  have p2 : (sortEnts es2).Perm es2 := List.perm_insertionSort entLE es2
  have hperm : (sortEnts es).Perm (sortEnts es2) := p1.trans (h.trans p2.symm)
  have hs1 : List.Sorted entLE (sortEnts es) := List.sorted_insertionSort entLE es
  have hs2 : List.Sorted entLE (sortEnts es2) := List.sorted_insertionSort entLE es2
  have hn1 : ((sortEnts es).map (fun e => e.1)).Nodup :=
    ((p1.map (fun e => e.1)).nodup_iff).mpr hn
  have hn2 : ((sortEnts es2).map (fun e => e.1)).Nodup :=
    ((p2.map (fun e => e.1)).nodup_iff).mpr (((h.map (fun e => e.1)).nodup_iff).mp hn)
  exact List.eq_of_perm_of_sorted hperm (sorted_entLT_of _ hs1 hn1) (sorted_entLT_of _ hs2 hn2)

/-- The walk of a directory does not depend on the order in which the
operating system presents its entries: any two presentations related by a
permutation (names being distinct, as they are in a real directory) produce
the same file list, because the walk reads the directory in sorted order. -/
theorem walkDir_perm (p : String) (es es2 : List (String × FSNode)) (h : es.Perm es2)
    (hn : (es.map (fun e => e.1)).Nodup) :
    walkDir p (.dir es) = walkDir p (.dir es2) := by
  unfold walkDir
  have h1 : sortTree (.dir es) = .dir (sortEnts (sortChildren es)) := rfl
  have h2 : sortTree (.dir es2) = .dir (sortEnts (sortChildren es2)) := rfl
  rw [h1, h2]
  have hperm : (sortChildren es).Perm (sortChildren es2) := by
    rw [sortChildren_eq_map, sortChildren_eq_map]
    exact h.map _
  have hnames : (sortChildren es).map (fun e => e.1) = es.map (fun e => e.1) := by
    rw [sortChildren_eq_map]
    simp
  rw [sortEnts_perm_eq _ _ hperm (by rw [hnames]; exact hn)]

/-- A path is relative to itself by the dot path. -/
theorem rel_self (x : String) : Filepath.Rel x x = some "." := by
  unfold Filepath.Rel relL
  simp

/-- The data of an appended string is the appended data. -/
theorem string_append_data (a b : String) : (a ++ b).data = a.data ++ b.data := rfl

/-! ## Claim theorems -/

/-- C1: the claim states that zipping a directory of readable files yields
an archive whose entries extract to byte-identical contents. The repository
tests assert exactly this, but zipper.go never flushes its 32768-byte
bufio.Writer, so for the directory envC1 holding one readable empty file
the call reports success while zero of the 122 bytes of the archive stream
reach disk, leaving an unopenable empty file; part_000, which writes to the
file without the extra buffer, produces the complete openable archive whose
single entry carries the source content. -/
theorem c1_flush_bug :
    ZipperGo.Zip envC1 "d" = ⟨.ok "d.zip", some ⟨[("d/a", [])], true, 0, 122⟩⟩ ∧
    ¬ DiskZip.openable ⟨[("d/a", [])], true, 0, 122⟩ ∧
    Part000.Zip envC1 "d" = ⟨.ok "d.zip", some ⟨[("a", [])], true, 118, 118⟩⟩ ∧
    DiskZip.openable ⟨[("a", [])], true, 118, 118⟩ :=
  ⟨by decide, by decide, by decide, by decide⟩

/-- C2 counterexample: in part_000, when io.Copy fails and the subsequent
os.Remove of the partial archive also fails, the call returns the copy
error while the destination file still exists on disk, contradicting the
claim that an error return always leaves no archive behind. -/
theorem c2_counterexample :
    (Part000.Zip envC2 "d").ret = .err .copyFail ∧ (Part000.Zip envC2 "d").dst ≠ none :=
  ⟨by decide, by decide⟩

/-- C2 as amended: an error return of zipper.go always leaves no file at
the destination (discovery failures precede creation, later failures remove
the file, and a failed removal panics instead of returning); for part_000
the same holds provided the removal itself succeeds. -/
theorem c2_amended (env : Env) (p : String) (e : ZErr) :
    ((ZipperGo.Zip env p).ret = .err e → (ZipperGo.Zip env p).dst = none) ∧
    (env.removeOk = true → (Part000.Zip env p).ret = .err e → (Part000.Zip env p).dst = none) :=
  ⟨fun h => zipGo_err_none env p e h, fun hrm h => part000_err_none env p e hrm h⟩

/-- C2 witness at a nonexistent input path. -/
theorem c2_amended_witness :
    (ZipperGo.Zip envC2w "nope").dst = none ∧ (Part000.Zip envC2w "nope").dst = none :=
  ⟨(c2_amended envC2w "nope" .walkFail).1 (by decide),
   (c2_amended envC2w "nope" .walkFail).2 (by decide) (by decide)⟩

/-- C3 counterexample: the claim says an archive entry is named by the path
relative to the cleaned input root, with a single-file input degenerating
to the bare file name. In zipper.go, the entry for file f of directory d is
named by the full walked path d/f, not the relative path f; in part_000, a
single-file input d2 produces the entry name dot (filepath.Rel of a path
with itself), not the bare name d2. -/
theorem c3_counterexample :
    entryNames (ZipperGo.Zip envC3a "d") = ["d/f"] ∧ ("d/f" : String) ≠ "f" ∧
    entryNames (Part000.Zip envC3b "d2") = ["."] ∧ ("." : String) ≠ "d2" :=
  ⟨by decide, by decide, by decide, by decide⟩

/-- C3 as amended: on success, zipper.go names each entry by the walked
path itself (the cleaned input path extended to the file), while part_000
names it by filepath.Rel of the cleaned input path, which for a single-file
input is the dot path rather than the bare file name. -/
theorem c3_amended (env : Env) (p d : String) (t : FSNode) (hroot : env.root = some t) :
    ((ZipperGo.Zip env p).ret = .ok d →
      entryNames (ZipperGo.Zip env p) = (walkDir (Filepath.Clean p) t).map (fun q => q.1)) ∧
    ((Part000.Zip env p).ret = .ok d →
      entryNames (Part000.Zip env p) =
        (walkDir (Filepath.Clean p) t).map
          (fun q => (Filepath.Rel (Filepath.Clean p) q.1).getD "")) ∧
    (∀ c, t = .file c → (Part000.Zip env p).ret = .ok d →
      entryNames (Part000.Zip env p) = ["."]) := by
  refine ⟨fun h => zipGo_names env p d t hroot h,
    fun h => part000_names env p d t hroot h, fun c hc h => ?_⟩
  subst hc
  rw [part000_names env p d (.file c) hroot h]
  have hw : walkDir (Filepath.Clean p) (.file c) = [(Filepath.Clean p, c)] := rfl
  rw [hw, List.map_cons, List.map_nil, rel_self]
  rfl

/-- C3 witness: the naming of both versions at concrete inputs. -/
theorem c3_amended_witness :
    entryNames (ZipperGo.Zip envC3a "d") =
      (walkDir (Filepath.Clean "d") (.dir [("f", .file [7])])).map (fun q => q.1) ∧
    entryNames (Part000.Zip envC3b "d2") = ["."] :=
  ⟨(c3_amended envC3a "d" "d.zip" (.dir [("f", .file [7])]) rfl).1 (by decide),
   (c3_amended envC3b "d2" "d2.zip" (.file [1]) rfl).2.2 [1] rfl (by decide)⟩

/-- C4: when the cleaned input or its base name is empty or a directory
marker, both versions fail with the invalid path error, create no file, and
return an outcome that does not depend on the environment at all, showing
the rejection happens before any filesystem access. -/
theorem c4_invalid_path (env env2 : Env) (p : String)
    (h : Filepath.Clean p = "." ∨ Filepath.Clean p = ".." ∨
      Filepath.Base (Filepath.Clean p) = "" ∨ Filepath.Base (Filepath.Clean p) = "." ∨
      Filepath.Base (Filepath.Clean p) = "..") :
    ZipperGo.Zip env p = ⟨.err .invalidPath, none⟩ ∧
    Part000.Zip env p = ⟨.err .invalidPath, none⟩ ∧
    ZipperGo.Zip env p = ZipperGo.Zip env2 p ∧
    Part000.Zip env p = Part000.Zip env2 p := by
  refine ⟨zipShell_invalid env p _ h, zipShell_invalid env p _ h, ?_, ?_⟩
  · show zipShell env p _ = zipShell env2 p _
    rw [zipShell_invalid env p _ h, zipShell_invalid env2 p _ h]
  · show zipShell env p _ = zipShell env2 p _
    rw [zipShell_invalid env p _ h, zipShell_invalid env2 p _ h]

/-- C4 witness: the input foo/.. cleans to the current directory marker and
is rejected identically under two entirely different environments. -/
theorem c4_invalid_path_witness :
    ZipperGo.Zip envC4a "foo/.." = ⟨.err .invalidPath, none⟩ ∧
    Part000.Zip envC4a "foo/.." = ⟨.err .invalidPath, none⟩ ∧
    ZipperGo.Zip envC4a "foo/.." = ZipperGo.Zip envC4b "foo/.." ∧
    Part000.Zip envC4a "foo/.." = Part000.Zip envC4b "foo/.." :=
  c4_invalid_path envC4a envC4b "foo/.." (Or.inl (by decide))

/-- C5 counterexample: for the input path consisting of the root slash,
which passes validation, a successful call returns /.zip, an absolute path:
the archive is created at the filesystem root, not in the working
directory, contradicting the unconditional in-the-working-directory claim. -/
theorem c5_counterexample :
    (ZipperGo.Zip envC5 "/").ret = .ok "/.zip" ∧ '/' ∈ ("/.zip" : String).data :=
  ⟨by decide, by decide⟩

/-- C5 as amended: on success of either version the returned path is always
the base of the cleaned input plus the zip suffix, and whenever the cleaned
input is not the root path, the returned path contains no slash, hence
names a file in the working directory; for the root path the name /.zip is
absolute. -/
theorem c5_amended (env : Env) (p d : String)
    (h : (ZipperGo.Zip env p).ret = .ok d ∨ (Part000.Zip env p).ret = .ok d) :
    d = Filepath.Base (Filepath.Clean p) ++ ".zip" ∧
    (Filepath.Clean p ≠ "/" → '/' ∉ d.data) := by
  have hd : d = Filepath.Base (Filepath.Clean p) ++ ".zip" := by
    rcases h with h | h
    · exact (zipGo_ok_inv env p d h).1
    · exact (part000_ok_inv env p d h).1
  refine ⟨hd, fun hne hmem => ?_⟩
  rw [hd, string_append_data] at hmem
  rcases List.mem_append.mp hmem with hmem | hmem
  · exact base_clean_no_slash p hne hmem
  · exact absurd hmem (by decide)

/-- C5 witness at an ordinary directory input. -/
theorem c5_amended_witness :
    ("d.zip" : String) = Filepath.Base (Filepath.Clean "d") ++ ".zip" ∧
    (Filepath.Clean "d" ≠ "/" → '/' ∉ ("d.zip" : String).data) :=
  c5_amended envC5w "d" "d.zip" (Or.inl (by decide))

/-- C6 counterexample: with the zip writer Close failing, zipper.go still
returns success and keeps the file on disk, because the deferred Close runs
after the completion flag is set and its error is discarded; no rollback
happens, contradicting the claim that a finalize failure yields an error. -/
theorem c6_counterexample :
    envC6.closeOk = false ∧
    (ZipperGo.Zip envC6 "d").ret = .ok "d.zip" ∧
    (ZipperGo.Zip envC6 "d").dst ≠ none :=
  ⟨rfl, by decide, by decide⟩

/-- C6 as amended: when the zip writer Close fails, part_000 never reports
success (it returns the finalize error and rolls back), while zipper.go can
still report success, retaining an unfinalized file on disk. -/
theorem c6_amended (env : Env) (p d : String) (hclose : env.closeOk = false) :
    (Part000.Zip env p).ret ≠ .ok d ∧
    ((ZipperGo.Zip env p).ret = .ok d →
      ∃ z, (ZipperGo.Zip env p).dst = some z ∧ z.finalized = false) := by
  constructor
  · intro h
    have hc := (part000_ok_inv env p d h).2.1
    rw [hclose] at hc
    exact Bool.noConfusion hc
  · intro h
    obtain ⟨hd, t, hroot, hrun, hdst⟩ := zipGo_ok_inv env p d h
    exact ⟨_, hdst, hclose⟩

/-- C6 witness in the environment where Close fails. -/
theorem c6_amended_witness :
    (Part000.Zip envC6 "d").ret ≠ .ok "d.zip" ∧
    ∃ z, (ZipperGo.Zip envC6 "d").dst = some z ∧ z.finalized = false :=
  ⟨(c6_amended envC6 "d" "d.zip" rfl).1,
   (c6_amended envC6 "d" "d.zip" rfl).2 (by decide)⟩

/-- C7: the claim (and the repository test for an empty directory) expects
a valid openable archive with zero entries. part_000 delivers it: the full
22-byte end-of-central-directory stream reaches disk. zipper.go reports
success but its never-flushed bufio.Writer still holds all 22 bytes, so the
on-disk file is empty and not an openable archive. -/
theorem c7_empty_dir :
    ZipperGo.Zip envC7 "d" = ⟨.ok "d.zip", some ⟨[], true, 0, 22⟩⟩ ∧
    ¬ DiskZip.openable ⟨[], true, 0, 22⟩ ∧
    Part000.Zip envC7 "d" = ⟨.ok "d.zip", some ⟨[], true, 22, 22⟩⟩ ∧
    DiskZip.openable ⟨[], true, 22, 22⟩ ∧
    (⟨[], true, 22, 22⟩ : DiskZip).entries = [] :=
  ⟨by decide, by decide, by decide, by decide, rfl⟩

/-- C8 counterexample: when removal of the partial archive fails after a
copy error, part_000 returns only the original copy error, does not panic,
and leaves the file on disk: the cleanup failure is silently swallowed. In
the same environment zipper.go panics, surfacing it loudly. -/
theorem c8_counterexample :
    (Part000.Zip envC8 "d").ret = .err .copyFail ∧
    (Part000.Zip envC8 "d").ret ≠ .panicked ∧
    (Part000.Zip envC8 "d").dst ≠ none ∧
    (ZipperGo.Zip envC8 "d").ret = .panicked :=
  ⟨by decide, by decide, by decide, by decide⟩

/-- C8 as amended: zipper.go never pairs an error return with residue on
disk (a failed removal escalates to a panic), whereas part_000 never panics
at all, discarding the removal error. -/
theorem c8_amended (env : Env) (p : String) :
    (∀ e, (ZipperGo.Zip env p).ret = .err e → (ZipperGo.Zip env p).dst = none) ∧
    (Part000.Zip env p).ret ≠ .panicked :=
  ⟨fun e h => zipGo_err_none env p e h, part000_no_panic env p⟩

/-- C8 witness at a nonexistent input path. -/
theorem c8_amended_witness :
    (ZipperGo.Zip envC8w "gone").dst = none ∧ (Part000.Zip envC8w "gone").ret ≠ .panicked :=
  ⟨(c8_amended envC8w "gone").1 .walkFail (by decide), (c8_amended envC8w "gone").2⟩

/-- C9 counterexample: the walk does complete before the destination is
created, so the file created by this call is never walked; but a stale
x.zip from an earlier run inside the walked tree is collected, and since
the working directory is /a/x and the input is /a/x, the walked path
/a/x/x.zip resolves to the same file as the destination x.zip. The archive
therefore contains an entry for the destination archive itself, whose
recorded content is empty because os.Create truncated it before reading. -/
theorem c9_counterexample :
    (ZipperGo.Zip envC9 "/a/x").ret = .ok "x.zip" ∧
    entryNames (ZipperGo.Zip envC9 "/a/x") = ["/a/x/x.zip"] ∧
    resolveL envC9.cwd.data "/a/x/x.zip".data = resolveL envC9.cwd.data "x.zip".data ∧
    (ZipperGo.Zip envC9 "/a/x").dst = some ⟨[("/a/x/x.zip", [])], true, 0, 136⟩ ∧
    entryNames (Part000.Zip envC9 "/a/x") = ["x.zip"] :=
  ⟨by decide, by decide, by decide, by decide, by decide⟩

/-- C9 as amended: on success the zipper.go entry names are exactly the
walked paths of the tree as it was before the destination file was created,
so when no walked path resolves to the destination, no entry does either;
an entry aliasing the destination can only come from a pre-existing file at
that path inside the walked tree. -/
theorem c9_amended (env : Env) (p d : String) (t : FSNode)
    (hroot : env.root = some t) (h : (ZipperGo.Zip env p).ret = .ok d) :
    entryNames (ZipperGo.Zip env p) = (walkDir (Filepath.Clean p) t).map (fun q => q.1) ∧
    ((∀ q ∈ walkDir (Filepath.Clean p) t,
        resolveL env.cwd.data q.1.data ≠ resolveL env.cwd.data d.data) →
      ∀ nm ∈ entryNames (ZipperGo.Zip env p),
        resolveL env.cwd.data nm.data ≠ resolveL env.cwd.data d.data) := by
  have hnames := zipGo_names env p d t hroot h
  refine ⟨hnames, fun hnoalias nm hnm => ?_⟩
  rw [hnames] at hnm
  obtain ⟨q, hq, rfl⟩ := List.mem_map.mp hnm
  exact hnoalias q hq

/-- C9 witness: a directory whose single file does not alias the
destination yields an archive with no destination-aliasing entry. -/
theorem c9_amended_witness :
    entryNames (ZipperGo.Zip envC9w "d") =
      (walkDir (Filepath.Clean "d") (.dir [("f", .file [1])])).map (fun q => q.1) ∧
    ∀ nm ∈ entryNames (ZipperGo.Zip envC9w "d"),
      resolveL envC9w.cwd.data nm.data ≠ resolveL envC9w.cwd.data ("d.zip" : String).data :=
  ⟨(c9_amended envC9w "d" "d.zip" (.dir [("f", .file [1])]) rfl (by decide)).1,
   (c9_amended envC9w "d" "d.zip" (.dir [("f", .file [1])]) rfl (by decide)).2 (by decide)⟩

/-- C10: on success the archive entries of both versions are in the order
of the walked file list, which the model takes in the sorted depth-first
order filepath.WalkDir guarantees; and the walk itself is invariant under
any reordering of directory entries (with their pairwise distinct names),
so repeated runs over the same tree produce identically ordered archives no
matter how the operating system presents each directory. -/
theorem c10_walk_order (env : Env) (p d : String) (t : FSNode) (hroot : env.root = some t) :
    ((ZipperGo.Zip env p).ret = .ok d →
      entryNames (ZipperGo.Zip env p) = (walkDir (Filepath.Clean p) t).map (fun q => q.1)) ∧
    ((Part000.Zip env p).ret = .ok d →
      entryNames (Part000.Zip env p) =
        (walkDir (Filepath.Clean p) t).map
          (fun q => (Filepath.Rel (Filepath.Clean p) q.1).getD "")) ∧
    (∀ (q : String) (es es2 : List (String × FSNode)), es.Perm es2 →
      (es.map (fun e => e.1)).Nodup → walkDir q (.dir es) = walkDir q (.dir es2)) :=
  ⟨fun h => zipGo_names env p d t hroot h,
   fun h => part000_names env p d t hroot h,
   fun q es es2 hperm hnodup => walkDir_perm q es es2 hperm hnodup⟩

/-- C10 witness: a directory presented out of name order is archived in
sorted order, and the two presentations walk identically. -/
theorem c10_walk_order_witness :
    entryNames (ZipperGo.Zip envC10 "d") =
      (walkDir (Filepath.Clean "d") (.dir [("b", .file [2]), ("a", .file [1])])).map
        (fun q => q.1) ∧
    walkDir "q" (.dir [("b", .file [2]), ("a", .file [1])]) =
      walkDir "q" (.dir [("a", .file [1]), ("b", .file [2])]) :=
  ⟨(c10_walk_order envC10 "d" "d.zip" (.dir [("b", .file [2]), ("a", .file [1])]) rfl).1
      (by decide),
   (c10_walk_order envC10 "d" "d.zip" (.dir [("b", .file [2]), ("a", .file [1])]) rfl).2.2
      "q" _ _ (List.Perm.swap _ _ _) (by decide)⟩
